import Mathlib

/-!
# Verification of the quiz scoring-and-leaderboard core (`src/assessment.py`)

This file shallowly embeds the two core computations of the repository:

* the grader inside `submit_test` (lines 179-192): counting attempted
  questions, scoring trimmed case-insensitive answer matches, and formatting
  the score percentage; and
* the leaderboard aggregator `get_leaderboard_data` (lines 44-102): reading
  the store, skipping records whose timestamp or score fail to parse,
  deduplicating to the latest record per student identity via a defaultdict
  with a strict `>` timestamp comparison against `datetime.min`, grouping the
  retained records by class, sorting each class descending by score with a
  stable sort, and optionally filtering to a single target class.

JSON values stored in a record's fields are modelled by `JVal` (null, string
or integer - the shapes the store and the claims exercise).  Python's
`str.strip`/`str.lower` are modelled over ASCII by `pyStrip`/`pyLower`
(Python also folds non-ASCII case and strips non-ASCII whitespace; every
value the source and spec exercise is ASCII).  `int(x)` is modelled by
`pyInt` (without Python's underscore-separator extension, which nothing
exercises).  `datetime.strptime(s, "%Y-%m-%d %H:%M:%S")` is modelled by
`parseDateTime`, including CPython's flexible 1-2 digit fields, its run of
whitespace for the literal space, and the constructor's day-of-month and
year-range validation.  Exceptions are modelled by `Option`/`Except`.
-/

/-- The ASCII whitespace characters stripped by Python's `str.strip()`. -/
def isPySpace (c : Char) : Bool :=
  c == ' ' || c == '\t' || c == '\n' || c == '\r' || c == '\x0b' || c == '\x0c'

/-- Strip leading and trailing whitespace from a character list. -/
def stripChars (l : List Char) : List Char :=
  ((l.dropWhile isPySpace).reverse.dropWhile isPySpace).reverse

/-- Model of Python's `str.strip()` (ASCII whitespace). -/
def pyStrip (s : String) : String :=
  ⟨stripChars s.data⟩

/-- Model of Python's `str.lower()` (ASCII case folding). -/
def pyLower (s : String) : String :=
  ⟨s.data.map Char.toLower⟩

/-- A JSON value as stored in a record field: null, a string, or an integer.
These are the value shapes the store file and the specification exercise. -/
inductive JVal where
  | jnull
  | jstr (s : String)
  | jint (n : Int)
deriving DecidableEq, Repr

/-- Model of Python's `str(x)` applied to the result of `dict.get(key)`:
a missing key yields `None` and `str(None) = "None"`. -/
def pyStr : Option JVal → String
  | none => "None"
  | some JVal.jnull => "None"
  | some (JVal.jstr s) => s
  | some (JVal.jint n) => toString n

/-- Digit run to a number: `none` unless the list is a nonempty run of ASCII
digits. -/
def digitsToNat (l : List Char) : Option Nat :=
  if l ≠ [] ∧ l.all Char.isDigit then
    some (l.foldl (fun a c => a * 10 + (c.toNat - 48)) 0)
  else
    none

/-- Model of Python's `int(s)` on a string: strip whitespace, optional sign,
then a nonempty digit run. -/
def parseIntStr (s : String) : Option Int :=
  match stripChars s.data with
  | '-' :: rest => (digitsToNat rest).map (fun n => -(n : Int))
  | '+' :: rest => (digitsToNat rest).map (fun n => (n : Int))
  | rest => (digitsToNat rest).map (fun n => (n : Int))

/-- Model of Python's `int(x)` on a JSON value: integers pass through,
strings are parsed, `None` raises `TypeError` (modelled as `none`). -/
def pyInt : JVal → Option Int
  | JVal.jint n => some n
  | JVal.jstr s => parseIntStr s
  | JVal.jnull => none

/-- A parsed `datetime` (second precision, as produced by
`strptime(_, "%Y-%m-%d %H:%M:%S")`). -/
structure DateTime where
  year : Nat
  month : Nat
  day : Nat
  hour : Nat
  minute : Nat
  second : Nat
deriving DecidableEq, Repr

/-- Injective order-preserving encoding of a (field-bounded) `DateTime`;
Python compares datetimes lexicographically by field, which on the values
`parseDateTime` produces (month ≤ 12 < 13, day ≤ 31 < 32, hour < 24,
minute < 60, second < 60) coincides with comparing this key. -/
def DateTime.key (d : DateTime) : Nat :=
  ((((d.year * 13 + d.month) * 32 + d.day) * 24 + d.hour) * 60 + d.minute) * 60 + d.second

/-- `datetime.min`, i.e. 0001-01-01 00:00:00, the initial timestamp of the
defaultdict entries in `get_leaderboard_data`. -/
def dtMin : DateTime := ⟨1, 1, 1, 0, 0, 0⟩

/-- Take exactly four ASCII digits (the `%Y` field). -/
def take4Digits : List Char → Option (Nat × List Char)
  | c1 :: c2 :: c3 :: c4 :: rest =>
    if c1.isDigit && c2.isDigit && c3.isDigit && c4.isDigit then
      some ((((c1.toNat - 48) * 10 + (c2.toNat - 48)) * 10 + (c3.toNat - 48)) * 10
        + (c4.toNat - 48), rest)
    else
      none
  | _ => none

/-- Greedily take one or two ASCII digits (the `%m`/`%d`/`%H`/`%M`/`%S`
fields; CPython's regexes accept one or two digits and the out-of-range
values they exclude are rejected below by the range checks). -/
def take2Digits : List Char → Option (Nat × List Char)
  | [] => none
  | [c1] => if c1.isDigit then some (c1.toNat - 48, []) else none
  | c1 :: c2 :: rest =>
    if c1.isDigit then
      if c2.isDigit then
        some ((c1.toNat - 48) * 10 + (c2.toNat - 48), rest)
      else
        some (c1.toNat - 48, c2 :: rest)
    else
      none

/-- Expect one literal character. -/
def expectChar (c : Char) : List Char → Option (List Char)
  | x :: rest => if x = c then some rest else none
  | [] => none

/-- A literal space in a `strptime` format matches a nonempty run of
whitespace. -/
def skipSpaces1 : List Char → Option (List Char)
  | x :: rest => if isPySpace x then some (rest.dropWhile isPySpace) else none
  | [] => none

/-- Gregorian leap-year rule, as used by `datetime`'s day validation. -/
def isLeap (y : Nat) : Bool :=
  (y % 4 == 0 && y % 100 != 0) || y % 400 == 0

/-- Days in a month, as validated by the `datetime` constructor. -/
def daysInMonth (y m : Nat) : Nat :=
  if m = 2 then (if isLeap y then 29 else 28)
  else if m = 4 ∨ m = 6 ∨ m = 9 ∨ m = 11 then 30
  else 31

/-- Model of `datetime.strptime(s, "%Y-%m-%d %H:%M:%S")`: `none` exactly when
the call raises `ValueError` (format mismatch, unconverted trailing data, or
an out-of-range field). -/
def parseDateTime (s : String) : Option DateTime :=
  (take4Digits s.data).bind fun py =>
  (expectChar '-' py.2).bind fun r2 =>
  (take2Digits r2).bind fun pmo =>
  (expectChar '-' pmo.2).bind fun r4 =>
  (take2Digits r4).bind fun pd =>
  (skipSpaces1 pd.2).bind fun r6 =>
  (take2Digits r6).bind fun ph =>
  (expectChar ':' ph.2).bind fun r8 =>
  (take2Digits r8).bind fun pmi =>
  (expectChar ':' pmi.2).bind fun r10 =>
  (take2Digits r10).bind fun ps =>
  if ps.2 = [] ∧ 1 ≤ py.1 ∧ 1 ≤ pmo.1 ∧ pmo.1 ≤ 12 ∧ 1 ≤ pd.1 ∧
      pd.1 ≤ daysInMonth py.1 pmo.1 ∧ ph.1 ≤ 23 ∧ pmi.1 ≤ 59 ∧ ps.1 ≤ 59 then
    some ⟨py.1, pmo.1, pd.1, ph.1, pmi.1, ps.1⟩
  else
    none

/-- A stored submission record as read back from `assessment_results.json`:
each field is the JSON value found under the corresponding header key, or
`none` when the key is absent (`dict.get` then returns `None`).  Only the
fields the aggregator reads are modelled (plus `school`, which is carried
through untouched). -/
structure Entry where
  timestamp : Option JVal
  name : Option JVal
  class_ : Option JVal
  school : Option JVal
  regNumber : Option JVal
  score : Option JVal
deriving DecidableEq, Repr

/-- The student identity key
`f"{name}-{reg_number}-{student_class}"` with
`student_class = str(entry.get('Class'))` (line 66/72 of the source). -/
def studentId (e : Entry) : String :=
  pyStr e.name ++ "-" ++ pyStr e.regNumber ++ "-" ++ pyStr e.class_

/-- The timestamp field fed to `strptime`: it parses only when the field is
present and a string (otherwise `strptime` raises `TypeError`). -/
def parseTsField : Option JVal → Option DateTime
  | some (JVal.jstr s) => parseDateTime s
  | _ => none

/-- One pass of the `try` block of the dedup loop (lines 64-75): compute the
identity key, `int(entry.get('Score', 0))` and the parsed timestamp;
`none` exactly when the loop's `except` clause skips the record. -/
def parseEntry (e : Entry) : Option (String × Int × DateTime) :=
  match pyInt (e.score.getD (JVal.jint 0)), parseTsField e.timestamp with
  | some sc, some t => some (studentId e, sc, t)
  | _, _ => none

/-- Association-list lookup, modelling Python `dict` lookup (first — and in
this program only — binding of a key; Python dicts preserve insertion
order, as these lists do). -/
def lookupA {α : Type} : List (String × α) → String → Option α
  | [], _ => none
  | (k, v) :: rest, key => if k = key then some v else lookupA rest key

/-- Replace the value bound to a key in place, modelling assignment to an
existing Python dict key (the key keeps its position). -/
def updateA {α : Type} : List (String × α) → String → α → List (String × α)
  | [], _, _ => []
  | (k, v) :: rest, key, nv =>
    if k = key then (k, nv) :: rest else (k, v) :: updateA rest key nv

/-- One value of the `latest_scores` defaultdict: the default-factory value
is `{'score': -1, 'timestamp': datetime.min, 'data': None}` (line 61). -/
structure LatestEntry where
  score : Int
  timestamp : DateTime
  data : Option Entry
deriving DecidableEq, Repr

/-- The `latest_scores` dict, in insertion order. -/
abbrev LatestMap := List (String × LatestEntry)

/-- One iteration of the dedup loop (lines 63-85).  A record that fails to
parse is skipped.  Otherwise the defaultdict subscript
`latest_scores[student_id]['timestamp']` first inserts the default value
when the key is missing; the strict `>` comparison then decides whether the
three assignment statements overwrite that slot with this record. -/
def processEntry (acc : LatestMap) (e : Entry) : LatestMap :=
  match parseEntry e with
  | none => acc
  | some (sid, sc, t) =>
    match lookupA acc sid with
    | none =>
      if dtMin.key < t.key then
        acc ++ [(sid, ⟨sc, t, some e⟩)]
      else
        acc ++ [(sid, ⟨-1, dtMin, none⟩)]
    | some le =>
      if le.timestamp.key < t.key then
        updateA acc sid ⟨sc, t, some e⟩
      else
        acc

/-- The whole dedup pass over the store contents. -/
def latestMap (l : List Entry) : LatestMap :=
  l.foldl processEntry []

/-- A per-class leaderboard mapping, in insertion order. -/
abbrev Leaderboard := List (String × List Entry)

/-- `leaderboards_by_class[class_num].append(entry_data)` on a
`defaultdict(list)` (lines 88-92). -/
def appendGroup (groups : Leaderboard) (k : String) (e : Entry) : Leaderboard :=
  match lookupA groups k with
  | none => groups ++ [(k, [e])]
  | some l => updateA groups k (l ++ [e])

/-- The grouping loop (lines 89-92), iterating `latest_scores` in insertion
order.  `entry_data['data']` is `None` exactly when the defaultdict default
was created but never overwritten; `None.get('Class')` then raises an
uncaught `AttributeError`, modelled as `Except.error ()`. -/
def groupFold (acc : Leaderboard) : LatestMap → Except Unit Leaderboard
  | [] => Except.ok acc
  | (_, le) :: rest =>
    match le.data with
    | none => Except.error ()
    | some e => groupFold (appendGroup acc (pyStr e.class_) e) rest

/-- Group the retained records by `str(entry.get('Class'))`. -/
def groupByClass (m : LatestMap) : Except Unit Leaderboard :=
  groupFold [] m

/-- The sort key `int(x.get('Score', 0))` of line 96.  Every record retained
by the dedup pass already passed `int(entry.get('Score', 0))`, so the
`getD 0` never papers over a failure on the lists this is applied to. -/
def sortKey (e : Entry) : Int :=
  (pyInt (e.score.getD (JVal.jint 0))).getD 0

/-- Insert into a descending list: scan past the entries with a strictly
larger key and stop at the first entry whose key is `≤` ours, so that among
equal keys an earlier-inserted entry stays in front. -/
def insertDesc (e : Entry) : List Entry → List Entry
  | [] => [e]
  | x :: xs => if sortKey e < sortKey x then x :: insertDesc e xs else e :: x :: xs

/-- Stable descending sort by `sortKey`, modelling
`list.sort(key=lambda x: int(x.get('Score', 0)), reverse=True)` (line 96):
Python's sort is stable and `reverse=True` keeps equal-key elements in
their original order. -/
def sortDesc : List Entry → List Entry
  | [] => []
  | x :: xs => insertDesc x (sortDesc xs)

/-- The store file as the aggregator finds it: absent, present but not valid
JSON (which includes a zero-length file), or a JSON array of records. -/
inductive Store where
  | missing
  | unreadable
  | ok (entries : List Entry)
deriving DecidableEq, Repr

/-- The records the aggregation loop iterates over (`all_results`):
an absent file leaves the initial `[]`. -/
def storeEntries : Store → List Entry
  | Store.ok l => l
  | _ => []

/-- Lines 61-102: dedup, group, sort, then either the full per-class mapping
or the single-entry mapping for a (truthy) target class, where the value
defaults to `[]` via `.get(str(target_class), [])`. -/
def aggregateStore (l : List Entry) (targetClass : Option String) :
    Except Unit Leaderboard :=
  match groupByClass (latestMap l) with
  | Except.error u => Except.error u
  | Except.ok groups =>
    let sorted := groups.map (fun p => (p.1, sortDesc p.2))
    match targetClass with
    | some t =>
      if t = "" then Except.ok sorted
      else Except.ok [(t, (lookupA sorted t).getD [])]
    | none => Except.ok sorted

/-- `get_leaderboard_data(target_class)` (lines 44-102).  A store file that
exists but fails `json.load` returns `{}` at once (lines 55-57); a missing
file proceeds with the empty list.  `Except.error ()` models the uncaught
`AttributeError` described at `groupFold`. -/
def get_leaderboard_data (store : Store) (targetClass : Option String) :
    Except Unit Leaderboard :=
  match store with
  | Store.unreadable => Except.ok []
  | Store.missing => aggregateStore [] targetClass
  | Store.ok l => aggregateStore l targetClass

/-- A question as grading reads it from the question bank: `q['id']` and
`q['answer']` (display fields are untouched by grading). -/
structure Question where
  id : Int
  answer : String
deriving DecidableEq, Repr

/-- `{str(q['id']): q['answer'] for q in class_questions}` (line 180): a
later question with the same id overwrites the value, the key keeps its
first position. -/
def buildAnswerKey (qs : List Question) : List (String × String) :=
  qs.foldl
    (fun acc q =>
      match lookupA acc (toString q.id) with
      | some _ => updateA acc (toString q.id) q.answer
      | none => acc ++ [(toString q.id, q.answer)])
    []

/-- The answer check of line 188:
`user_ans.strip().lower() == correct_ans.strip().lower()`. -/
def answerCorrect (correctAns userAns : String) : Bool :=
  pyLower (pyStrip userAns) == pyLower (pyStrip correctAns)

/-- One iteration of the grading loop (lines 183-189) over one
`(q_id, correct_ans)` item, updating `(questions_attempted, score)`.
`user_answers.get(f'question_{q_id}')` is `none` when the form lacks the
key; `if user_ans and user_ans.strip() != ''` decides attempted. -/
def gradeStep (userAnswers : List (String × String)) (p : Nat × Nat)
    (kv : String × String) : Nat × Nat :=
  match lookupA userAnswers ("question_" ++ kv.1) with
  | none => p
  | some ua =>
    if ua ≠ "" ∧ pyStrip ua ≠ "" then
      (p.1 + 1, if answerCorrect kv.2 ua then p.2 + 1 else p.2)
    else
      p

/-- The grading loop: `(questions_attempted, score)` after iterating all
items of the answer key. -/
def gradeAnswers (qs : List Question) (userAnswers : List (String × String)) :
    Nat × Nat :=
  (buildAnswerKey qs).foldl (gradeStep userAnswers) (0, 0)

/-- Round half to even, on the exact rational `num / den`; models CPython's
`f"{x:.0f}"` on the float `(score / total) * 100`, exactly whenever the
float computation is exact (it is on every value the spec exercises). -/
def roundHalfEven (num den : Nat) : Nat :=
  let q := num / den
  let r := num % den
  if 2 * r < den then q
  else if den < 2 * r then q + 1
  else if q % 2 = 0 then q else q + 1

/-- Line 192:
`f"{(score / total_questions) * 100:.0f}%" if total_questions > 0 else "0%"`. -/
def score_percentage (score total : Nat) : String :=
  if 0 < total then toString (roundHalfEven (100 * score) total) ++ "%" else "0%"

/-- The tallies the submission handler computes and stores (lines 179-192):
attempted count, score, total and the formatted percentage - the decision
core of one `SubmissionRecord`. -/
structure GradeResult where
  attempted : Nat
  score : Nat
  total : Nat
  pct : String
deriving DecidableEq, Repr

/-- The grading core of `submit_test` for one submission. -/
def submitResult (qs : List Question) (userAnswers : List (String × String)) :
    GradeResult :=
  let p := gradeAnswers qs userAnswers
  ⟨p.1, p.2, qs.length, score_percentage p.2 qs.length⟩

/-! ## Association-list lemmas -/

theorem lookupA_append {α : Type} (m : List (String × α)) (k key : String) (v : α) :
    lookupA (m ++ [(k, v)]) key =
      match lookupA m key with
      | some w => some w
      | none => if k = key then some v else none := by
  induction m with
  | nil => simp [lookupA]
  | cons p rest ih =>
    by_cases h : p.1 = key
    · simp [lookupA, h]
    · simpa [lookupA, h] using ih

theorem lookupA_updateA {α : Type} (m : List (String × α)) (k : String) (v : α)
    (key : String) :
    lookupA (updateA m k v) key =
      if k = key then (lookupA m key).map (fun _ => v) else lookupA m key := by
  induction m with
  | nil => simp [lookupA, updateA]
  | cons p rest ih =>
    by_cases hk : p.1 = k
    · by_cases hkey : k = key
      · simp [lookupA, updateA, hk, hkey]
      · have : p.1 ≠ key := by rw [hk]; exact hkey
        simp [lookupA, updateA, hk, hkey, this]
    · by_cases hkey : p.1 = key
      · have h1 : k ≠ key := by rw [← hkey]; exact fun h => hk h.symm
        have h2 : key ≠ k := Ne.symm h1
        simp [lookupA, updateA, hk, hkey, h1, h2]
      · simpa [lookupA, updateA, hk, hkey] using ih

theorem mem_updateA {α : Type} {m : List (String × α)} {k : String} {v : α}
    {p : String × α} (h : p ∈ updateA m k v) : p = (k, v) ∨ p ∈ m := by
  induction m with
  | nil => simp [updateA] at h
  | cons q rest ih =>
    by_cases hk : q.1 = k
    · rw [updateA, if_pos hk] at h
      rcases List.mem_cons.mp h with h1 | h1
      · exact Or.inl (by rw [h1, hk])
      · exact Or.inr (List.mem_cons_of_mem _ h1)
    · rw [updateA, if_neg hk] at h
      rcases List.mem_cons.mp h with h1 | h1
      · exact Or.inr (h1 ▸ List.mem_cons_self _ _)
      · rcases ih h1 with h2 | h2
        · exact Or.inl h2
        · exact Or.inr (List.mem_cons_of_mem _ h2)

theorem lookupA_mem {α : Type} {m : List (String × α)} {k : String} {v : α}
    (h : lookupA m k = some v) : (k, v) ∈ m := by
  induction m with
  | nil => simp [lookupA] at h
  | cons p rest ih =>
    rw [lookupA] at h
    by_cases hk : p.1 = k
    · rw [if_pos hk] at h
      have : p = (k, v) := by
        cases p with
        | mk a b => cases Option.some.inj h; cases hk; rfl
      exact this ▸ List.mem_cons_self _ _
    · rw [if_neg hk] at h
      exact List.mem_cons_of_mem _ (ih h)

theorem lookupA_map {α β : Type} (m : List (String × α)) (f : α → β) (key : String) :
    lookupA (m.map (fun p => (p.1, f p.2))) key = (lookupA m key).map f := by
  induction m with
  | nil => simp [lookupA]
  | cons p rest ih =>
    by_cases hk : p.1 = key
    · simp [lookupA, hk]
    · simpa [lookupA, hk] using ih

/-! ## Dedup-pass lemmas -/

theorem latestMap_concat (l : List Entry) (e : Entry) :
    latestMap (l ++ [e]) = processEntry (latestMap l) e := by
  simp [latestMap, List.foldl_append]

/-- A record's parsed timestamp is strictly later than `datetime.min`
(vacuously true for unparseable records).  Every timestamp the application
itself ever writes (`datetime.now()`) satisfies this. -/
def tsAboveMin (e : Entry) : Bool :=
  match parseEntry e with
  | some (_, _, t) => decide (dtMin.key < t.key)
  | none => true

/-- Under `tsAboveMin`, every slot of `latest_scores` holds the data of a
record of the store that parses to that slot's key, score and timestamp. -/
theorem latestMap_wf {l : List Entry} (h : l.all tsAboveMin = true) :
    ∀ p ∈ latestMap l, ∃ e, p.2.data = some e ∧
      parseEntry e = some (p.1, p.2.score, p.2.timestamp) ∧ e ∈ l := by
  induction l using List.reverseRecOn with
  | nil => intro p hp; simp [latestMap] at hp
  | append_singleton xs x ih =>
    have hall : ∀ e ∈ xs ++ [x], tsAboveMin e = true := by
      intro e he
      exact List.all_eq_true.mp h e he
    have hxs := ih (List.all_eq_true.mpr (fun e he => hall e (List.mem_append_left _ he)))
    have hx : tsAboveMin x = true := hall x (List.mem_append_right _ (by simp))
    intro p hp
    rw [latestMap_concat] at hp
    rw [processEntry] at hp
    rcases hpe : parseEntry x with _ | ⟨sid, sc, t⟩
    · rw [hpe] at hp
      rcases hxs p hp with ⟨e, h1, h2, h3⟩
      exact ⟨e, h1, h2, List.mem_append_left _ h3⟩
    · rw [hpe] at hp
      dsimp only at hp
      have htmin : dtMin.key < t.key := by
        rw [tsAboveMin, hpe] at hx
        exact of_decide_eq_true hx
      rcases hlk : lookupA (latestMap xs) sid with _ | le
      · rw [hlk] at hp
        dsimp only at hp
        rw [if_pos htmin] at hp
        rcases List.mem_append.mp hp with h1 | h1
        · rcases hxs p h1 with ⟨e, h2, h3, h4⟩
          exact ⟨e, h2, h3, List.mem_append_left _ h4⟩
        · have : p = (sid, ⟨sc, t, some x⟩) := by simpa using h1
          refine ⟨x, by rw [this], ?_, List.mem_append_right _ (by simp)⟩
          rw [this, hpe]
      · rw [hlk] at hp
        dsimp only at hp
        by_cases hgt : le.timestamp.key < t.key
        · rw [if_pos hgt] at hp
          rcases mem_updateA hp with h1 | h1
          · refine ⟨x, by rw [h1], ?_, List.mem_append_right _ (by simp)⟩
            rw [h1, hpe]
          · rcases hxs p h1 with ⟨e, h2, h3, h4⟩
            exact ⟨e, h2, h3, List.mem_append_left _ h4⟩
        · rw [if_neg hgt] at hp
          rcases hxs p hp with ⟨e, h1, h2, h3⟩
          exact ⟨e, h1, h2, List.mem_append_left _ h3⟩

/-! ## Grouping-pass lemmas -/

theorem groupFold_ok {m : LatestMap} (h : ∀ p ∈ m, p.2.data.isSome = true) :
    ∀ acc, ∃ gs, groupFold acc m = Except.ok gs := by
  induction m with
  | nil => exact fun acc => ⟨acc, rfl⟩
  | cons p rest ih =>
    intro acc
    rcases hd : p.2.data with _ | e
    · have := h p (List.mem_cons_self _ _)
      rw [hd] at this
      simp at this
    · rcases ih (fun q hq => h q (List.mem_cons_of_mem _ hq))
        (appendGroup acc (pyStr e.class_) e) with ⟨gs, hgs⟩
      refine ⟨gs, ?_⟩
      cases p with
      | mk sid le => simp only [groupFold]; rw [hd]; exact hgs

theorem mem_appendGroup {acc : Leaderboard} {k0 : String} {e : Entry}
    {k : String} {w : List Entry} (h : (k, w) ∈ appendGroup acc k0 e) :
    k = k0 ∨ ∃ w', (k, w') ∈ acc := by
  rw [appendGroup] at h
  rcases hlk : lookupA acc k0 with _ | l
  · rw [hlk] at h
    rcases List.mem_append.mp h with h1 | h1
    · exact Or.inr ⟨w, h1⟩
    · simp at h1
      exact Or.inl h1.1
  · rw [hlk] at h
    rcases mem_updateA h with h1 | h1
    · exact Or.inl (by cases h1; rfl)
    · exact Or.inr ⟨w, h1⟩

/-- Every class key of the grouped leaderboard is
`str(entry.get('Class'))` of some retained record (or was already a key of
the accumulator). -/
theorem groupFold_keys {m : LatestMap} :
    ∀ {acc gs : Leaderboard}, groupFold acc m = Except.ok gs →
      ∀ k w, (k, w) ∈ gs →
        (∃ w', (k, w') ∈ acc) ∨
          ∃ p ∈ m, ∃ e, p.2.data = some e ∧ k = pyStr e.class_ := by
  induction m with
  | nil =>
    intro acc gs h k w hw
    cases h
    exact Or.inl ⟨w, hw⟩
  | cons p rest ih =>
    intro acc gs h k w hw
    rcases hd : p.2.data with _ | e
    · cases p with
      | mk sid le =>
        simp only [groupFold] at h
        rw [hd] at h
        cases h
    · cases p with
      | mk sid le =>
        simp only [groupFold] at h
        rw [hd] at h
        rcases ih h k w hw with h1 | h1
        · rcases h1 with ⟨w', hw'⟩
          rcases mem_appendGroup hw' with h2 | h2
          · exact Or.inr ⟨(sid, le), List.mem_cons_self _ _, e, hd, h2⟩
          · exact Or.inl h2
        · rcases h1 with ⟨q, hq, e', hq1, hq2⟩
          exact Or.inr ⟨q, List.mem_cons_of_mem _ hq, e', hq1, hq2⟩

/-! ## Sorting lemmas -/

theorem mem_insertDesc {e y : Entry} {l : List Entry} :
    y ∈ insertDesc e l ↔ y = e ∨ y ∈ l := by
  induction l with
  | nil => simp [insertDesc]
  | cons x xs ih =>
    rw [insertDesc]
    by_cases h : sortKey e < sortKey x
    · rw [if_pos h]
      constructor
      · intro hy
        rcases List.mem_cons.mp hy with h1 | h1
        · exact Or.inr (h1 ▸ List.mem_cons_self _ _)
        · rcases ih.mp h1 with h2 | h2
          · exact Or.inl h2
          · exact Or.inr (List.mem_cons_of_mem _ h2)
      · intro hy
        rcases hy with h1 | h1
        · exact List.mem_cons_of_mem _ (ih.mpr (Or.inl h1))
        · rcases List.mem_cons.mp h1 with h2 | h2
          · exact h2 ▸ List.mem_cons_self _ _
          · exact List.mem_cons_of_mem _ (ih.mpr (Or.inr h2))
    · rw [if_neg h]
      simp [List.mem_cons]

theorem insertDesc_pairwise {e : Entry} {l : List Entry}
    (h : List.Pairwise (fun a b => sortKey b ≤ sortKey a) l) :
    List.Pairwise (fun a b => sortKey b ≤ sortKey a) (insertDesc e l) := by
  induction l with
  | nil => simp [insertDesc]
  | cons x xs ih =>
    rw [List.pairwise_cons] at h
    rw [insertDesc]
    by_cases hlt : sortKey e < sortKey x
    · rw [if_pos hlt]
      rw [List.pairwise_cons]
      refine ⟨?_, ih h.2⟩
      intro y hy
      rcases mem_insertDesc.mp hy with h1 | h1
      · exact h1 ▸ le_of_lt hlt
      · exact h.1 y h1
    · rw [if_neg hlt]
      rw [List.pairwise_cons]
      refine ⟨?_, List.pairwise_cons.mpr h⟩
      intro y hy
      rcases List.mem_cons.mp hy with h1 | h1
      · exact h1 ▸ le_of_not_lt hlt
      · exact le_trans (h.1 y h1) (le_of_not_lt hlt)

/-- Each sorted class list is descending in the key
`int(x.get('Score', 0))`. -/
theorem sortDesc_pairwise (l : List Entry) :
    List.Pairwise (fun a b => sortKey b ≤ sortKey a) (sortDesc l) := by
  induction l with
  | nil => simp [sortDesc]
  | cons x xs ih => exact insertDesc_pairwise ih

theorem filter_insertDesc (e : Entry) (l : List Entry) (s : Int) :
    (insertDesc e l).filter (fun x => sortKey x == s) =
      if sortKey e = s then e :: l.filter (fun x => sortKey x == s)
      else l.filter (fun x => sortKey x == s) := by
  induction l with
  | nil =>
    by_cases h : sortKey e = s
    · simp [insertDesc, List.filter_cons, h]
    · simp [insertDesc, List.filter_cons, h]
  | cons x xs ih =>
    rw [insertDesc]
    by_cases hlt : sortKey e < sortKey x
    · rw [if_pos hlt]
      by_cases hs : sortKey e = s
      · have hx : ¬ (sortKey x = s) := by
          intro hxs
          rw [← hs] at hxs
          exact absurd hxs (ne_of_gt hlt)
        rw [if_pos hs] at ih ⊢
        simp only [List.filter_cons]
        rw [if_neg (by simpa using hx), ih]
        simp [hx]
      · rw [if_neg hs] at ih ⊢
        simp only [List.filter_cons]
        rw [ih]
    · rw [if_neg hlt]
      by_cases hs : sortKey e = s
      · rw [if_pos hs]
        simp only [List.filter_cons]
        rw [if_pos (by simpa using hs)]
      · rw [if_neg hs]
        simp only [List.filter_cons]
        rw [if_neg (by simpa using hs)]

/-- Stability of the class sort: for each score value, the records carrying
that score appear in the sorted list exactly in the order in which they
entered the class group. -/
theorem sortDesc_filter (l : List Entry) (s : Int) :
    (sortDesc l).filter (fun x => sortKey x == s) =
      l.filter (fun x => sortKey x == s) := by
  induction l with
  | nil => simp [sortDesc]
  | cons x xs ih =>
    rw [sortDesc, filter_insertDesc]
    by_cases hs : sortKey x = s
    · rw [if_pos hs, ih]
      simp [List.filter_cons, hs]
    · rw [if_neg hs, ih]
      simp [List.filter_cons, hs]

/-! ## Dedup correctness: the retained record per identity -/

/-- `le` is the record the dedup pass retains for identity `sid` in store
`l`: its data is a record of `l` parsing to `(sid, le.score, le.timestamp)`,
every parseable record of that identity has a timestamp `≤` its own
(maximality), and every such record seen **before** it is strictly earlier
(the first-seen record wins ties at equal timestamps). -/
def Retained (l : List Entry) (sid : String) (le : LatestEntry) : Prop :=
  ∃ e l1 l2, le.data = some e ∧
    parseEntry e = some (sid, le.score, le.timestamp) ∧
    l = l1 ++ e :: l2 ∧
    (∀ e' ∈ l1, ∀ sc' t', parseEntry e' = some (sid, sc', t') →
      t'.key < le.timestamp.key) ∧
    (∀ e' ∈ l, ∀ sc' t', parseEntry e' = some (sid, sc', t') →
      t'.key ≤ le.timestamp.key)

/-- No parseable record of identity `sid` occurs in `l`. -/
def NoneSeen (l : List Entry) (sid : String) : Prop :=
  ∀ e' ∈ l, ∀ sc' t', parseEntry e' ≠ some (sid, sc', t')

theorem Retained.append_keep {l : List Entry} {sid : String} {le : LatestEntry}
    {x : Entry}
    (hr : Retained l sid le)
    (hx : ∀ sc' t', parseEntry x = some (sid, sc', t') →
      t'.key ≤ le.timestamp.key) :
    Retained (l ++ [x]) sid le := by
  rcases hr with ⟨e, l1, l2, h1, h2, h3, h4, h5⟩
  refine ⟨e, l1, l2 ++ [x], h1, h2, by rw [h3]; simp, h4, ?_⟩
  intro e' he' sc' t' hp
  rcases List.mem_append.mp he' with hm | hm
  · exact h5 e' hm sc' t' hp
  · have : e' = x := by simpa using hm
    exact hx sc' t' (this ▸ hp)

theorem NoneSeen.append_skip {l : List Entry} {sid : String} {x : Entry}
    (hn : NoneSeen l sid)
    (hx : ∀ sc' t', parseEntry x ≠ some (sid, sc', t')) :
    NoneSeen (l ++ [x]) sid := by
  intro e' he' sc' t'
  rcases List.mem_append.mp he' with hm | hm
  · exact hn e' hm sc' t'
  · have : e' = x := by simpa using hm
    exact this ▸ hx sc' t'

theorem Retained.fresh {l : List Entry} {sid : String} {sc : Int}
    {t : DateTime} {x : Entry}
    (hn : NoneSeen l sid) (hpe : parseEntry x = some (sid, sc, t)) :
    Retained (l ++ [x]) sid ⟨sc, t, some x⟩ := by
  refine ⟨x, l, [], rfl, hpe, by simp, ?_, ?_⟩
  · intro e' he' sc' t' hp
    exact absurd hp (hn e' he' sc' t')
  · intro e' he' sc' t' hp
    rcases List.mem_append.mp he' with hm | hm
    · exact absurd hp (hn e' hm sc' t')
    · have hx : e' = x := by simpa using hm
      rw [hx, hpe] at hp
      have := Option.some.inj hp
      rw [Prod.mk.injEq, Prod.mk.injEq] at this
      rw [this.2.2]

theorem Retained.update {l : List Entry} {sid : String} {le : LatestEntry}
    {sc : Int} {t : DateTime} {x : Entry}
    (hr : Retained l sid le) (hpe : parseEntry x = some (sid, sc, t))
    (hgt : le.timestamp.key < t.key) :
    Retained (l ++ [x]) sid ⟨sc, t, some x⟩ := by
  rcases hr with ⟨e, l1, l2, h1, h2, h3, h4, h5⟩
  refine ⟨x, l, [], rfl, hpe, by simp, ?_, ?_⟩
  · intro e' he' sc' t' hp
    exact lt_of_le_of_lt (h5 e' he' sc' t' hp) hgt
  · intro e' he' sc' t' hp
    rcases List.mem_append.mp he' with hm | hm
    · exact le_of_lt (lt_of_le_of_lt (h5 e' hm sc' t' hp) hgt)
    · have hx : e' = x := by simpa using hm
      rw [hx, hpe] at hp
      have := Option.some.inj hp
      rw [Prod.mk.injEq, Prod.mk.injEq] at this
      rw [this.2.2]

/-- Correctness of the whole dedup pass, provided every parseable timestamp
is strictly above `datetime.min`: each `latest_scores` slot holds exactly
the first-seen record of maximal timestamp for its identity, and an
identity without a slot has no parseable record at all. -/
theorem latestMap_retained {l : List Entry} (h : l.all tsAboveMin = true) :
    ∀ sid : String,
      (∀ le, lookupA (latestMap l) sid = some le → Retained l sid le) ∧
      (lookupA (latestMap l) sid = none → NoneSeen l sid) := by
  induction l using List.reverseRecOn with
  | nil =>
    intro sid
    constructor
    · intro le hle
      simp [latestMap, lookupA] at hle
    · intro _ e' he'
      simp at he'
  | append_singleton xs x ih =>
    have hall : ∀ e ∈ xs ++ [x], tsAboveMin e = true := by
      intro e he
      exact List.all_eq_true.mp h e he
    have hxs := ih (List.all_eq_true.mpr (fun e he => hall e (List.mem_append_left _ he)))
    have hx : tsAboveMin x = true := hall x (List.mem_append_right _ (by simp))
    intro sid
    rw [latestMap_concat, processEntry]
    rcases hpe : parseEntry x with _ | ⟨sid0, sc0, t0⟩
    · dsimp only
      constructor
      · intro le hle
        exact (hxs sid).1 le hle |>.append_keep
          (fun sc' t' hp => absurd hp (by rw [hpe]; exact fun hc => Option.noConfusion hc))
      · intro hnone
        exact ((hxs sid).2 hnone).append_skip
          (fun sc' t' hp => by rw [hpe] at hp; exact Option.noConfusion hp)
    · dsimp only
      have htmin : dtMin.key < t0.key := by
        rw [tsAboveMin, hpe] at hx
        exact of_decide_eq_true hx
      rcases hlk : lookupA (latestMap xs) sid0 with _ | le0
      · dsimp only
        rw [if_pos htmin]
        rw [lookupA_append]
        constructor
        · intro le hle
          rcases hsid : lookupA (latestMap xs) sid with _ | w
          · rw [hsid] at hle
            dsimp only at hle
            by_cases heq : sid0 = sid
            · rw [if_pos heq] at hle
              cases Option.some.inj hle
              subst heq
              exact Retained.fresh ((hxs sid0).2 hsid) hpe
            · rw [if_neg heq] at hle
              exact Option.noConfusion hle
          · rw [hsid] at hle
            dsimp only at hle
            cases Option.some.inj hle
            refine ((hxs sid).1 le hsid).append_keep (fun sc' t' hp => ?_)
            rw [hpe] at hp
            have heq := Option.some.inj hp
            rw [Prod.mk.injEq] at heq
            rw [heq.1] at hlk
            rw [hlk] at hsid
            exact Option.noConfusion hsid
        · intro hnone
          rcases hsid : lookupA (latestMap xs) sid with _ | w
          · rw [hsid] at hnone
            dsimp only at hnone
            by_cases heq : sid0 = sid
            · rw [if_pos heq] at hnone
              exact Option.noConfusion hnone
            · exact ((hxs sid).2 hsid).append_skip (fun sc' t' hp => by
                rw [hpe] at hp
                have h1 := Option.some.inj hp
                rw [Prod.mk.injEq] at h1
                exact heq h1.1)
          · rw [hsid] at hnone
            dsimp only at hnone
            exact Option.noConfusion hnone
      · dsimp only
        by_cases hgt : le0.timestamp.key < t0.key
        · rw [if_pos hgt]
          rw [lookupA_updateA]
          constructor
          · intro le hle
            by_cases heq : sid0 = sid
            · rw [if_pos heq] at hle
              subst heq
              rw [hlk] at hle
              cases Option.some.inj hle
              exact ((hxs sid0).1 le0 hlk).update hpe hgt
            · rw [if_neg heq] at hle
              refine ((hxs sid).1 le hle).append_keep (fun sc' t' hp => ?_)
              rw [hpe] at hp
              have h1 := Option.some.inj hp
              rw [Prod.mk.injEq] at h1
              exact absurd h1.1 heq
          · intro hnone
            by_cases heq : sid0 = sid
            · rw [if_pos heq] at hnone
              subst heq
              rw [hlk] at hnone
              exact Option.noConfusion hnone
            · rw [if_neg heq] at hnone
              exact ((hxs sid).2 hnone).append_skip (fun sc' t' hp => by
                rw [hpe] at hp
                have h1 := Option.some.inj hp
                rw [Prod.mk.injEq] at h1
                exact heq h1.1)
        · rw [if_neg hgt]
          constructor
          · intro le hle
            refine ((hxs sid).1 le hle).append_keep (fun sc' t' hp => ?_)
            rw [hpe] at hp
            have h1 := Option.some.inj hp
            rw [Prod.mk.injEq, Prod.mk.injEq] at h1
            have hsid0 : sid0 = sid := h1.1
            subst hsid0
            rw [hlk] at hle
            cases Option.some.inj hle
            rw [← h1.2.2]
            exact Nat.le_of_not_lt hgt
          · intro hnone
            refine ((hxs sid).2 hnone).append_skip (fun sc' t' hp => ?_)
            rw [hpe] at hp
            have h1 := Option.some.inj hp
            rw [Prod.mk.injEq] at h1
            rw [h1.1] at hlk
            rw [hlk] at hnone
            exact Option.noConfusion hnone

/-- Under `tsAboveMin` the aggregation pipeline cannot hit the
`data = None` slot, so it returns normally. -/
theorem aggregateStore_ok {l : List Entry} (h : l.all tsAboveMin = true)
    (tc : Option String) : ∃ gs, aggregateStore l tc = Except.ok gs := by
  have hwf : ∀ p ∈ latestMap l, p.2.data.isSome = true := by
    intro p hp
    rcases latestMap_wf h p hp with ⟨e, h1, _, _⟩
    rw [h1]
    rfl
  rcases groupFold_ok hwf [] with ⟨groups, hg⟩
  have hgb : groupByClass (latestMap l) = Except.ok groups := hg
  rw [aggregateStore, hgb]
  dsimp only
  cases tc with
  | none => exact ⟨_, rfl⟩
  | some t =>
    dsimp only
    by_cases ht : t = ""
    · rw [if_pos ht]
      exact ⟨_, rfl⟩
    · rw [if_neg ht]
      exact ⟨_, rfl⟩

/-! ## Grader lemmas -/

theorem updateA_length {α : Type} (m : List (String × α)) (k : String) (v : α) :
    (updateA m k v).length = m.length := by
  induction m with
  | nil => rfl
  | cons p rest ih =>
    by_cases h : p.1 = k
    · simp [updateA, h]
    · simp [updateA, h, ih]

theorem buildAnswerKey_length (qs : List Question) :
    (buildAnswerKey qs).length ≤ qs.length := by
  have hgen : ∀ (qs : List Question) (acc : List (String × String)),
      (qs.foldl
        (fun acc q =>
          match lookupA acc (toString q.id) with
          | some _ => updateA acc (toString q.id) q.answer
          | none => acc ++ [(toString q.id, q.answer)])
        acc).length ≤ acc.length + qs.length := by
    intro qs
    induction qs with
    | nil => intro acc; simp
    | cons q rest ih =>
      intro acc
      rw [List.foldl_cons]
      rcases hlk : lookupA acc (toString q.id) with _ | w
      · dsimp only
        calc (rest.foldl _ (acc ++ [(toString q.id, q.answer)])).length
            ≤ (acc ++ [(toString q.id, q.answer)]).length + rest.length := ih _
          _ = acc.length + (rest.length + 1) := by
              simp only [List.length_append, List.length_cons, List.length_nil]
              omega
          _ = acc.length + (q :: rest).length := by simp
      · dsimp only
        calc (rest.foldl _ (updateA acc (toString q.id) q.answer)).length
            ≤ (updateA acc (toString q.id) q.answer).length + rest.length := ih _
          _ = acc.length + rest.length := by rw [updateA_length]
          _ ≤ acc.length + (q :: rest).length := by
              simp only [List.length_cons]
              omega
  simpa using hgen qs []

theorem gradeStep_cases (ua : List (String × String)) (p : Nat × Nat)
    (kv : String × String) :
    gradeStep ua p kv = p ∨ gradeStep ua p kv = (p.1 + 1, p.2) ∨
      gradeStep ua p kv = (p.1 + 1, p.2 + 1) := by
  rw [gradeStep]
  rcases lookupA ua ("question_" ++ kv.1) with _ | v
  · exact Or.inl rfl
  · dsimp only
    by_cases ha : v ≠ "" ∧ pyStrip v ≠ ""
    · rw [if_pos ha]
      by_cases hc : answerCorrect kv.2 v
      · rw [if_pos hc]
        exact Or.inr (Or.inr rfl)
      · rw [if_neg hc]
        exact Or.inr (Or.inl rfl)
    · rw [if_neg ha]
      exact Or.inl rfl

theorem gradeFold_bounds (ua : List (String × String)) :
    ∀ (kl : List (String × String)) (p : Nat × Nat),
      (kl.foldl (gradeStep ua) p).1 ≤ p.1 + kl.length ∧
      (p.2 ≤ p.1 → (kl.foldl (gradeStep ua) p).2 ≤ (kl.foldl (gradeStep ua) p).1) := by
  intro kl
  induction kl with
  | nil => exact fun p => ⟨by simp, fun h => by simpa using h⟩
  | cons kv rest ih =>
    intro p
    rw [List.foldl_cons]
    rcases gradeStep_cases ua p kv with hc | hc | hc
    · rw [hc]
      rcases ih p with ⟨h1, h2⟩
      exact ⟨le_trans h1 (by simp only [List.length_cons]; omega), h2⟩
    · rw [hc]
      rcases ih (p.1 + 1, p.2) with ⟨h1, h2⟩
      exact ⟨le_trans h1 (by simp only [List.length_cons]; omega),
        fun hle => h2 (by dsimp only; omega)⟩
    · rw [hc]
      rcases ih (p.1 + 1, p.2 + 1) with ⟨h1, h2⟩
      exact ⟨le_trans h1 (by simp only [List.length_cons]; omega),
        fun hle => h2 (by dsimp only; omega)⟩

theorem pyLower_eq_empty {s : String} : pyLower s = "" ↔ s = "" := by
  constructor
  · intro h
    have h1 : s.data.map Char.toLower = [] := congrArg String.data h
    have h2 : s.data = [] := List.map_eq_nil_iff.mp h1
    cases s with
    | mk d => cases h2; rfl
  · intro h
    rw [h]
    rfl

theorem attempted_iff {v : String} : (v ≠ "" ∧ pyStrip v ≠ "") ↔ pyStrip v ≠ "" := by
  constructor
  · exact fun h => h.2
  · intro h
    refine ⟨?_, h⟩
    intro hv
    rw [hv] at h
    exact h rfl

/-- Grading each question depends only on the stripped, lowercased form of
the submitted answer. -/
theorem gradeStep_normalized {ua ua' : List (String × String)}
    (h : ∀ k, (lookupA ua k).map (fun v => pyLower (pyStrip v)) =
      (lookupA ua' k).map (fun v => pyLower (pyStrip v)))
    (p : Nat × Nat) (kv : String × String) :
    gradeStep ua p kv = gradeStep ua' p kv := by
  have hk := h ("question_" ++ kv.1)
  rw [gradeStep, gradeStep]
  rcases h1 : lookupA ua ("question_" ++ kv.1) with _ | v <;>
    rcases h2 : lookupA ua' ("question_" ++ kv.1) with _ | v'
  · rfl
  · rw [h1, h2] at hk
    exact absurd hk (by simp)
  · rw [h1, h2] at hk
    exact absurd hk (by simp)
  · rw [h1, h2] at hk
    simp only [Option.map_some'] at hk
    have hk2 : pyLower (pyStrip v) = pyLower (pyStrip v') := Option.some.inj hk
    dsimp only
    have h0 : (pyStrip v = "") ↔ (pyStrip v' = "") := by
      constructor
      · intro hv
        refine pyLower_eq_empty.mp ?_
        rw [← hk2, hv]
        rfl
      · intro hv
        refine pyLower_eq_empty.mp ?_
        rw [hk2, hv]
        rfl
    have hcond : (v ≠ "" ∧ pyStrip v ≠ "") ↔ (v' ≠ "" ∧ pyStrip v' ≠ "") := by
      rw [attempted_iff, attempted_iff]
      exact not_congr h0
    have hcorr : answerCorrect kv.2 v = answerCorrect kv.2 v' := by
      rw [answerCorrect, answerCorrect, hk2]
    by_cases hc : v ≠ "" ∧ pyStrip v ≠ ""
    · rw [if_pos hc, if_pos (hcond.mp hc), hcorr]
    · rw [if_neg hc, if_neg (fun hc' => hc (hcond.mpr hc'))]

/-- Whole-submission form of the previous lemma. -/
theorem gradeAnswers_normalized (qs : List Question)
    (ua ua' : List (String × String))
    (h : ∀ k, (lookupA ua k).map (fun v => pyLower (pyStrip v)) =
      (lookupA ua' k).map (fun v => pyLower (pyStrip v))) :
    gradeAnswers qs ua = gradeAnswers qs ua' := by
  rw [gradeAnswers, gradeAnswers]
  have hgen : ∀ (kl : List (String × String)) (p : Nat × Nat),
      kl.foldl (gradeStep ua) p = kl.foldl (gradeStep ua') p := by
    intro kl
    induction kl with
    | nil => intro p; rfl
    | cons kv rest ih =>
      intro p
      rw [List.foldl_cons, List.foldl_cons, gradeStep_normalized h, ih]
  exact hgen _ _

/-! ## Claim theorems: grader -/

/-- C3: for the question set `[{id:1,answer:"Paris"},{id:2,answer:"42"}]`
and the submitted answers `{question_1:"paris", question_2:""}`, grading
returns `attempted = 1`, `score = 1`, `total = 2` and
`score_percentage = "50%"`. -/
theorem claim_C3_grading_example :
    submitResult [⟨1, "Paris"⟩, ⟨2, "42"⟩]
        [("question_1", "paris"), ("question_2", "")] =
      ⟨1, 1, 2, "50%"⟩ := by
  rfl

/-- C4: for every class question set and every submitted answer map, the
computed tallies satisfy `attempted ≤ total` (the question-set size) and
`score ≤ attempted`. -/
theorem claim_C4_attempted_score_bounds (qs : List Question)
    (ua : List (String × String)) :
    (submitResult qs ua).attempted ≤ (submitResult qs ua).total ∧
      (submitResult qs ua).score ≤ (submitResult qs ua).attempted := by
  have hb := gradeFold_bounds ua (buildAnswerKey qs) (0, 0)
  constructor
  · show (gradeAnswers qs ua).1 ≤ qs.length
    calc (gradeAnswers qs ua).1 ≤ 0 + (buildAnswerKey qs).length := hb.1
      _ = (buildAnswerKey qs).length := by omega
      _ ≤ qs.length := buildAnswerKey_length qs
  · show (gradeAnswers qs ua).2 ≤ (gradeAnswers qs ua).1
    exact hb.2 (le_refl 0)

/-- C5: grading is case- and whitespace-insensitive: a submitted answer is
judged only through its stripped lowercased form (so any two answer maps
agreeing on those forms grade identically), and in particular submitting
`" Paris "` grades the same as submitting `"paris"` against the stored
answer `"Paris"`. -/
theorem claim_C5_case_whitespace_insensitive :
    (∀ (qs : List Question) (ua ua' : List (String × String)),
      (∀ k, (lookupA ua k).map (fun v => pyLower (pyStrip v)) =
        (lookupA ua' k).map (fun v => pyLower (pyStrip v))) →
      gradeAnswers qs ua = gradeAnswers qs ua') ∧
    submitResult [⟨1, "Paris"⟩] [("question_1", " Paris ")] =
      submitResult [⟨1, "Paris"⟩] [("question_1", "paris")] := by
  constructor
  · exact gradeAnswers_normalized
  · rfl

/-- Witness for C5 at a concrete input: two answer maps whose values agree
after stripping and lowercasing grade identically. -/
theorem claim_C5_witness :
    gradeAnswers [⟨1, "Paris"⟩] [("question_1", " paris")] =
      gradeAnswers [⟨1, "Paris"⟩] [("question_1", "PARIS  ")] := by
  refine claim_C5_case_whitespace_insensitive.1 _ _ _ (fun k => ?_)
  simp only [lookupA]
  by_cases h : ("question_1" : String) = k
  · rw [if_pos h, if_pos h]
    decide
  · rw [if_neg h, if_neg h]

/-- C8: a zero question total yields the percentage string `"0%"` through
the guarded branch, with no division performed. -/
theorem claim_C8_zero_total_percentage (n : Nat) (ua : List (String × String)) :
    score_percentage n 0 = "0%" ∧ (submitResult [] ua).pct = "0%" ∧
      (submitResult [] ua).total = 0 := by
  exact ⟨rfl, rfl, rfl⟩

/-! ## Aggregator pipeline lemmas -/

/-- The record data held in a `latest_scores` slot always comes from the
store (no hypothesis needed: slots are only ever filled from processed
records). -/
theorem latestMap_data_mem {l : List Entry} :
    ∀ {p : String × LatestEntry}, p ∈ latestMap l →
      ∀ {e : Entry}, p.2.data = some e → e ∈ l := by
  induction l using List.reverseRecOn with
  | nil => intro p hp; simp [latestMap] at hp
  | append_singleton xs x ih =>
    intro p hp e he
    rw [latestMap_concat, processEntry] at hp
    rcases hpe : parseEntry x with _ | ⟨sid, sc, t⟩
    · rw [hpe] at hp
      exact List.mem_append_left _ (ih hp he)
    · rw [hpe] at hp
      dsimp only at hp
      rcases hlk : lookupA (latestMap xs) sid with _ | le0
      · rw [hlk] at hp
        dsimp only at hp
        by_cases htm : dtMin.key < t.key
        · rw [if_pos htm] at hp
          rcases List.mem_append.mp hp with h1 | h1
          · exact List.mem_append_left _ (ih h1 he)
          · have hpx : p = (sid, ⟨sc, t, some x⟩) := by simpa using h1
            rw [hpx] at he
            cases Option.some.inj he
            exact List.mem_append_right _ (by simp)
        · rw [if_neg htm] at hp
          rcases List.mem_append.mp hp with h1 | h1
          · exact List.mem_append_left _ (ih h1 he)
          · have hpx : p = (sid, ⟨-1, dtMin, none⟩) := by simpa using h1
            rw [hpx] at he
            exact Option.noConfusion he
      · rw [hlk] at hp
        dsimp only at hp
        by_cases hgt : le0.timestamp.key < t.key
        · rw [if_pos hgt] at hp
          rcases mem_updateA hp with h1 | h1
          · rw [h1] at he
            cases Option.some.inj he
            exact List.mem_append_right _ (by simp)
          · exact List.mem_append_left _ (ih h1 he)
        · rw [if_neg hgt] at hp
          exact List.mem_append_left _ (ih hp he)

/-- The dedup pass ignores records the `except` clause skips: folding over
the store equals folding over its parseable records only. -/
theorem latestMap_filter (l : List Entry) :
    latestMap l = latestMap (l.filter (fun e => (parseEntry e).isSome)) := by
  have hgen : ∀ (l : List Entry) (acc : LatestMap),
      l.foldl processEntry acc =
        (l.filter (fun e => (parseEntry e).isSome)).foldl processEntry acc := by
    intro l
    induction l with
    | nil => intro acc; rfl
    | cons e rest ih =>
      intro acc
      rcases hpe : parseEntry e with _ | v
      · have hskip : processEntry acc e = acc := by
          rw [processEntry, hpe]
        rw [List.foldl_cons, hskip, List.filter_cons, if_neg (by simp [hpe])]
        exact ih acc
      · rw [List.foldl_cons, List.filter_cons, if_pos (by simp [hpe]), List.foldl_cons]
        exact ih _
  exact hgen l []

/-- Aggregation only looks at the store through `latestMap`. -/
theorem aggregateStore_congr {l l' : List Entry} (h : latestMap l = latestMap l')
    (tc : Option String) : aggregateStore l tc = aggregateStore l' tc := by
  rw [aggregateStore, aggregateStore, h]

/-- Shape of a successful aggregation for a nonempty target class: a single
entry keyed by the target, whose value is `[]` when no store record has
that class string. -/
theorem aggregateStore_target {l : List Entry} {tc : String} (htc : tc ≠ "")
    {gs : Leaderboard} (h : aggregateStore l (some tc) = Except.ok gs) :
    gs.map Prod.fst = [tc] ∧
      ((∀ e ∈ l, pyStr e.class_ ≠ tc) → gs = [(tc, [])]) := by
  rw [aggregateStore] at h
  rcases hgb : groupByClass (latestMap l) with u | groups
  · rw [hgb] at h
    exact Except.noConfusion h
  · rw [hgb] at h
    dsimp only at h
    rw [if_neg htc] at h
    have hgs : gs = [(tc, (lookupA (groups.map (fun p => (p.1, sortDesc p.2))) tc).getD [])] :=
      (Except.ok.inj h).symm
    constructor
    · rw [hgs]
      rfl
    · intro hno
      rw [hgs]
      rcases hlg : lookupA groups tc with _ | w
      · rw [lookupA_map, hlg]
        rfl
      · exfalso
        have hmem : (tc, w) ∈ groups := lookupA_mem hlg
        rcases groupFold_keys hgb tc w hmem with h1 | h1
        · rcases h1 with ⟨w', hw'⟩
          simp at hw'
        · rcases h1 with ⟨p, hp, e, hpe, hcl⟩
          exact hno e (latestMap_data_mem hp hpe) hcl.symm

/-- Every class list a successful aggregation returns is descending in the
sort key. -/
theorem aggregateStore_groups_sorted {l : List Entry} {tc : Option String}
    {gs : Leaderboard} (h : aggregateStore l tc = Except.ok gs) :
    ∀ p ∈ gs, List.Pairwise (fun a b => sortKey b ≤ sortKey a) p.2 := by
  rw [aggregateStore] at h
  rcases hgb : groupByClass (latestMap l) with u | groups
  · rw [hgb] at h
    exact Except.noConfusion h
  · rw [hgb] at h
    dsimp only at h
    have hsorted : ∀ p ∈ groups.map (fun p => (p.1, sortDesc p.2)),
        List.Pairwise (fun a b => sortKey b ≤ sortKey a) p.2 := by
      intro p hp
      rcases List.mem_map.mp hp with ⟨q, _, hq⟩
      rw [← hq]
      exact sortDesc_pairwise q.2
    cases tc with
    | none =>
      cases Except.ok.inj h
      exact hsorted
    | some t =>
      dsimp only at h
      by_cases ht : t = ""
      · rw [if_pos ht] at h
        cases Except.ok.inj h
        exact hsorted
      · rw [if_neg ht] at h
        cases Except.ok.inj h
        intro p hp
        have hp1 : p = (t, (lookupA (groups.map (fun p => (p.1, sortDesc p.2))) t).getD []) := by
          simpa using hp
        rw [hp1]
        rw [lookupA_map]
        rcases hlg : lookupA groups t with _ | w
        · simp
        · dsimp only
          exact sortDesc_pairwise w

/-! ## Concrete records used by the aggregator claims -/

/-- A well-formed record: student A, class 5, score 3, earlier timestamp. -/
def entC1t1 : Entry :=
  ⟨some (JVal.jstr "2024-01-01 10:00:00"), some (JVal.jstr "A"),
   some (JVal.jstr "5"), some (JVal.jstr "S"), some (JVal.jstr "1"),
   some (JVal.jint 3)⟩

/-- Same identity as `entC1t1`, score 5, later timestamp. -/
def entC1t2 : Entry :=
  ⟨some (JVal.jstr "2024-01-02 10:00:00"), some (JVal.jstr "A"),
   some (JVal.jstr "5"), some (JVal.jstr "S"), some (JVal.jstr "1"),
   some (JVal.jint 5)⟩

/-- A fully parseable record whose timestamp is exactly
`0001-01-01 00:00:00`, i.e. `datetime.min`. -/
def entC1min : Entry :=
  ⟨some (JVal.jstr "0001-01-01 00:00:00"), some (JVal.jstr "Ada"),
   some (JVal.jstr "5"), some (JVal.jstr "S"), some (JVal.jstr "7"),
   some (JVal.jint 3)⟩

/-- A fully parseable record at `datetime.min`, for the totality claim. -/
def entC10min : Entry :=
  ⟨some (JVal.jstr "0001-01-01 00:00:00"), some (JVal.jstr "Ben"),
   some (JVal.jstr "4"), some (JVal.jstr "S"), some (JVal.jstr "9"),
   some (JVal.jint 2)⟩

/-- Well-formed record for the resilience claim. -/
def entC7good : Entry :=
  ⟨some (JVal.jstr "2024-02-01 10:00:00"), some (JVal.jstr "Cara"),
   some (JVal.jstr "5"), some (JVal.jstr "S"), some (JVal.jstr "3"),
   some (JVal.jint 4)⟩

/-- Record whose timestamp does not parse. -/
def entC7bad : Entry :=
  ⟨some (JVal.jstr "not-a-date"), some (JVal.jstr "Drew"),
   some (JVal.jstr "5"), some (JVal.jstr "S"), some (JVal.jstr "4"),
   some (JVal.jint 9)⟩

/-- Class-6 record with score 3. -/
def entC6x : Entry :=
  ⟨some (JVal.jstr "2024-05-01 10:00:00"), some (JVal.jstr "X"),
   some (JVal.jstr "6"), some (JVal.jstr "S"), some (JVal.jstr "21"),
   some (JVal.jint 3)⟩

/-- Class-6 record with score 5. -/
def entC6y : Entry :=
  ⟨some (JVal.jstr "2024-05-01 11:00:00"), some (JVal.jstr "Y"),
   some (JVal.jstr "6"), some (JVal.jstr "S"), some (JVal.jstr "22"),
   some (JVal.jint 5)⟩

/-- Record with no `Score` key at all (but a parseable timestamp). -/
def entC9noScore : Entry :=
  ⟨some (JVal.jstr "2024-03-01 09:00:00"), some (JVal.jstr "Dana"),
   some (JVal.jstr "5"), some (JVal.jstr "S"), some (JVal.jstr "11"),
   none⟩

/-- Record with score 5 in the same class as `entC9noScore`. -/
def entC9scored : Entry :=
  ⟨some (JVal.jstr "2024-03-01 08:00:00"), some (JVal.jstr "Evan"),
   some (JVal.jstr "5"), some (JVal.jstr "S"), some (JVal.jstr "12"),
   some (JVal.jint 5)⟩

/-! ## Claim theorems: aggregator -/

/-- C1 counterexample: two records of the same identity with equal
(parseable) timestamps, both `0001-01-01 00:00:00`; the claim says the
first-seen record is retained and aggregation does not crash, but the
strict `>` against the defaultdict's `datetime.min` leaves a `data = None`
slot and the grouping pass raises `AttributeError`. -/
theorem claim_C1_counterexample :
    get_leaderboard_data (Store.ok [entC1min, entC1min]) none =
      Except.error () := by
  rfl

/-- C1 (amended): provided every parseable record's timestamp is strictly
later than `datetime.min`, each `latest_scores` slot retains exactly the
first-seen record of maximum parsed timestamp for its identity (so ties at
equal timestamps keep the first-seen record), identities without a slot
have no parseable record, aggregation returns normally, and for two records
of one identity with timestamps T1 < T2 only the T2 record appears in that
class's leaderboard. -/
theorem claim_C1_latest_record_retained (l : List Entry) (tc : Option String)
    (h : l.all tsAboveMin = true) :
    (∀ sid le, lookupA (latestMap l) sid = some le → Retained l sid le) ∧
      (∀ sid, lookupA (latestMap l) sid = none → NoneSeen l sid) ∧
      (∃ gs, get_leaderboard_data (Store.ok l) tc = Except.ok gs) ∧
      get_leaderboard_data (Store.ok [entC1t1, entC1t2]) (some "5") =
        Except.ok [("5", [entC1t2])] := by
  refine ⟨fun sid => (latestMap_retained h sid).1,
    fun sid => (latestMap_retained h sid).2, aggregateStore_ok h tc, ?_⟩
  rfl

/-- Witness for C1 at a concrete store: dedup keeps only the record with
the later timestamp. -/
theorem claim_C1_witness :
    get_leaderboard_data (Store.ok [entC1t1, entC1t2]) (some "5") =
      Except.ok [("5", [entC1t2])] :=
  (claim_C1_latest_record_retained [entC1t1, entC1t2] (some "5")
    (by decide)).2.2.2

/-- C2 counterexample: with an unreadable store file (a corrupt or
zero-length `assessment_results.json`) and target class "5", the aggregator
returns the empty mapping - the requested key is omitted, contradicting the
claim's "never omit the key ... including when the store file is ...
empty, or unreadable". -/
theorem claim_C2_counterexample :
    get_leaderboard_data Store.unreadable (some "5") = Except.ok [] ∧
      (Except.ok ([] : Leaderboard) : Except Unit Leaderboard) ≠
        Except.ok [(("5" : String), ([] : List Entry))] := by
  constructor
  · rfl
  · intro hc
    exact List.noConfusion (Except.ok.inj hc)

/-- C2 (amended): for a non-empty target class, whenever the store file is
not unreadable and aggregation returns normally, the result is a
single-entry mapping keyed by the target, with `[]` when no store record
has that class; an unreadable (including empty) store file instead yields
the empty mapping with the key omitted. -/
theorem claim_C2_target_key_present (st : Store) (tc : String)
    (htc : tc ≠ "") (hst : st ≠ Store.unreadable) (gs : Leaderboard)
    (h : get_leaderboard_data st (some tc) = Except.ok gs) :
    gs.map Prod.fst = [tc] ∧
      ((∀ e ∈ storeEntries st, pyStr e.class_ ≠ tc) → gs = [(tc, [])]) := by
  cases st with
  | unreadable => exact absurd rfl hst
  | missing => exact aggregateStore_target htc h
  | ok l => exact aggregateStore_target htc h

/-- Witness for C2 at a concrete input: a missing store file still yields
the single-entry mapping for the requested class. -/
theorem claim_C2_witness :
    (([(("7" : String), ([] : List Entry))] : Leaderboard).map Prod.fst
        = ["7"]) ∧
      ([(("7" : String), ([] : List Entry))] : Leaderboard) = [("7", [])] := by
  have h := claim_C2_target_key_present Store.missing "7" (by decide)
    (by intro hc; exact Store.noConfusion hc) [("7", [])] rfl
  exact ⟨h.1, h.2 (fun e he => absurd he (by simp [storeEntries]))⟩

/-- C6: within each class group of a successful aggregation the records are
descending in the sort key `int(x.get('Score', 0))`, and the sort is
stable: for every score value, the records carrying it stay in the order in
which they entered the class group. -/
theorem claim_C6_sorted_descending_stable :
    (∀ (st : Store) (tc : Option String) (gs : Leaderboard),
      get_leaderboard_data st tc = Except.ok gs →
      ∀ p ∈ gs, List.Pairwise (fun a b => sortKey b ≤ sortKey a) p.2) ∧
      (∀ (l : List Entry) (s : Int),
        (sortDesc l).filter (fun x => sortKey x == s) =
          l.filter (fun x => sortKey x == s)) := by
  constructor
  · intro st tc gs h
    cases st with
    | unreadable =>
      have hgs : gs = [] := (Except.ok.inj h).symm
      intro p hp
      rw [hgs] at hp
      simp at hp
    | missing => exact @aggregateStore_groups_sorted [] tc gs h
    | ok l => exact aggregateStore_groups_sorted h
  · exact sortDesc_filter

/-- Witness for C6 at a concrete store: the class-6 leaderboard comes out
descending. -/
theorem claim_C6_witness :
    List.Pairwise (fun a b => sortKey b ≤ sortKey a) [entC6y, entC6x] :=
  claim_C6_sorted_descending_stable.1 (Store.ok [entC6x, entC6y]) none
    [("6", [entC6y, entC6x])] rfl ("6", [entC6y, entC6x]) (by simp)

/-- C7: a record the parse step rejects (unparseable timestamp or
non-integer score) is a no-op for aggregation - the result over any store
equals the result over its parseable records only - and concretely a store
of one well-formed record and one record with an unparseable timestamp
aggregates, without error, to the well-formed record's contribution
alone. -/
theorem claim_C7_malformed_records_skipped :
    (∀ (l : List Entry) (tc : Option String),
      get_leaderboard_data (Store.ok l) tc =
        get_leaderboard_data
          (Store.ok (l.filter (fun e => (parseEntry e).isSome))) tc) ∧
      get_leaderboard_data (Store.ok [entC7good, entC7bad]) none =
        Except.ok [("5", [entC7good])] := by
  constructor
  · intro l tc
    exact aggregateStore_congr (latestMap_filter l) tc
  · rfl

/-- C9: a record lacking the `Score` key but with a parseable timestamp is
not skipped: `int(entry.get('Score', 0))` makes it parse with score 0, its
sort key is 0, and concretely it appears in the leaderboard, sorted below a
score-5 record of its class. -/
theorem claim_C9_missing_score_defaults_to_zero (e : Entry) (t : DateTime)
    (hs : e.score = none) (ht : parseTsField e.timestamp = some t) :
    (parseEntry e = some (studentId e, 0, t) ∧ sortKey e = 0) ∧
      get_leaderboard_data (Store.ok [entC9noScore, entC9scored]) none =
        Except.ok [("5", [entC9scored, entC9noScore])] := by
  refine ⟨⟨?_, ?_⟩, rfl⟩
  · rw [parseEntry, hs, ht]
    rfl
  · rw [sortKey, hs]
    rfl

/-- Witness for C9 at the concrete scoreless record. -/
theorem claim_C9_witness :
    (parseEntry entC9noScore =
        some (studentId entC9noScore, 0, ⟨2024, 3, 1, 9, 0, 0⟩) ∧
      sortKey entC9noScore = 0) ∧
      get_leaderboard_data (Store.ok [entC9noScore, entC9scored]) none =
        Except.ok [("5", [entC9scored, entC9noScore])] :=
  claim_C9_missing_score_defaults_to_zero entC9noScore ⟨2024, 3, 1, 9, 0, 0⟩
    rfl (by decide)

/-- C10 (code bug): a store of one record whose every field is parseable -
timestamp exactly `0001-01-01 00:00:00` (`datetime.min`) and integer score -
makes `get_leaderboard_data` raise instead of returning: the strict `>`
against the defaultdict default at `datetime.min` never fires, the slot
keeps `data = None`, and the grouping pass's `entry_data.get('Class')`
raises `AttributeError`. -/
theorem claim_C10_min_timestamp_raises :
    parseEntry entC10min = some ("Ben-9-4", 2, dtMin) ∧
      get_leaderboard_data (Store.ok [entC10min]) none = Except.error () := by
  exact ⟨rfl, rfl⟩
